import Mathlib

/-!
Verification of the prover backend API (Go, `main.go`): the request-scoped
job-execution pipeline of the `prove` HTTP handler — workspace lifecycle,
bounded subprocess invocation, and output-artifact harvesting.

The Go source is shallowly embedded: each filesystem or process interaction
is resolved through an explicit environment (`Env`) of oracle results, and
the handler is a pure function from the parsed request and that environment
to an HTTP outcome plus the ordered trace of side effects it performed.
-/

/-! ## JSON values

`map[string]any` option maps and the parsed `result.yaml` map are modelled
by a mutual inductive of JSON values.  Numbers are modelled as integers
(the concrete maps exercised by the service use integral numbers; float
formatting is outside the scope of this embedding). -/

mutual

inductive JsonV where
  | null : JsonV
  | bool (b : Bool) : JsonV
  | num (n : Int) : JsonV
  | str (s : String) : JsonV
  | arr (xs : JsonList) : JsonV
  | obj (fs : JsonObj) : JsonV
deriving DecidableEq

inductive JsonList where
  | nil : JsonList
  | cons (v : JsonV) (tl : JsonList) : JsonList
deriving DecidableEq

inductive JsonObj where
  | nil : JsonObj
  | cons (k : String) (v : JsonV) (tl : JsonObj) : JsonObj
deriving DecidableEq

end

/-- Lookup in a JSON object, first binding wins (Go maps have unique keys). -/
def JsonObj.lookup : JsonObj → String → Option JsonV
  | .nil, _ => none
  | .cons k v tl, key => if k = key then some v else tl.lookup key

/-- Go map assignment `m[k] = v`: replace the binding when the key is
present, otherwise add it. -/
def JsonObj.set : JsonObj → String → JsonV → JsonObj
  | .nil, key, v => .cons key v .nil
  | .cons k w tl, key, v => if k = key then .cons key v tl else .cons k w (tl.set key v)

/-! ## Request and validation -/

/-- The parsed request body (`Request` struct).  `options` is a Go
`map[string]any`: `none` models a nil map (JSON `null` or an absent
field), `some` a non-nil map. -/
structure Request where
  options : Option JsonObj
  formula : String
  timeout : Int
  trace : Bool

/-- The `validator` struct tags: `options` is `required` (a map must be
non-nil), `formula` is `required` (a string must be non-empty),
`timeout` is `required,min=1,max=10` (`required` rejects zero, which
`min=1` subsumes).  `trace` carries no validation tag. -/
def validateRequest (r : Request) : Bool :=
  r.options.isSome && !(r.formula = "") && (1 ≤ r.timeout) && (r.timeout ≤ 10)

/-! ## Unix permission helpers

The handler writes both input artifacts with mode `0400`. -/

/-- Owner permission triad of a mode (bits 8..6). -/
def ownerPerm (p : Nat) : Nat := p / 64 % 8

/-- Group permission triad of a mode (bits 5..3). -/
def groupPerm (p : Nat) : Nat := p / 8 % 8

/-- World permission triad of a mode (bits 2..0). -/
def worldPerm (p : Nat) : Nat := p % 8

/-! ## Binary selection (`prove`, the prover-path block)

```go
prover := "prover"
if req.Trace { prover += "-trace" }
if runtime.GOOS == "windows" { prover += "-windows.exe" }
prover = filepath.Join(".", "bin", prover)
```
-/

/-- The path separator, per `runtime.GOOS`. -/
def pathSep (goos : String) : Char := if goos = "windows" then '\\' else '/'

/-- Split a character list on a separator character. -/
def splitOnChar (sep : Char) : List Char → List (List Char)
  | [] => [[]]
  | c :: r =>
    let rest := splitOnChar sep r
    if c = sep then [] :: rest
    else
      match rest with
      | [] => [[c]]
      | h :: t => (c :: h) :: t

/-- Join path components with a separator character. -/
def joinParts (sep : Char) : List String → String
  | [] => ""
  | [p] => p
  | p :: rest => p ++ String.mk [sep] ++ joinParts sep rest

/-- Go `filepath.Clean`, restricted to the relative, dot-dot-free paths this
program builds: drop `.` components and empty components, rejoin with the
platform separator (the full Go `Clean` agrees on such inputs). -/
def filepathClean (goos : String) (s : String) : String :=
  let parts := ((splitOnChar (pathSep goos) s.data).map String.mk).filter
    (fun p => p ≠ "" ∧ p ≠ ".")
  if parts = [] then "." else joinParts (pathSep goos) parts

/-- Go `filepath.Join`: drop empty elements, join with the separator, clean. -/
def filepathJoin (goos : String) (parts : List String) : String :=
  filepathClean goos (joinParts (pathSep goos) (parts.filter (· ≠ "")))

/-- The physical path of the binary the handler launches, translated from
the prover-path block of `prove`.  It depends only on the request Trace
flag and on `runtime.GOOS`. -/
def proverPath (trace : Bool) (goos : String) : String :=
  let prover := "prover"
  let prover := if trace then prover ++ "-trace" else prover
  let prover := if goos = "windows" then prover ++ "-windows.exe" else prover
  filepathJoin goos [".", "bin", prover]

example : proverPath false ("linux") = ("bin/prover") := by decide
example : proverPath true ("linux") = ("bin/prover-trace") := by decide
example : proverPath true ("windows") = ("bin\\prover-trace-windows.exe") := by decide

/-! ## Result augmentation (`prove`, after parsing `result.yaml`)

```go
if s := string(stdout); s != "" { response.Result["stdout"] = s }
if timeout { response.Result["timeout"] = true }
```
-/

/-- Augmentation of the parsed summary map with the captured combined
output and the timeout flag, translated from `prove`. -/
def augmentResult (result : JsonObj) (stdout : String) (timedOut : Bool) : JsonObj :=
  let result := if stdout ≠ "" then result.set "stdout" (.str stdout) else result
  if timedOut then result.set "timeout" (.bool true) else result

/-! ## Output-file harvesting (`prove`, the directory loop)

The loop over `os.ReadDir` entries: input and summary filenames are
skipped, a failed individual read is skipped, empty content is skipped,
everything else is added to `response.Files` keyed by filename.
`readFile` is the read oracle, keyed by the name of the file inside the
workspace. -/

/-- One iteration of the harvesting loop. -/
def harvestStep (readFile : String → Option String)
    (acc : List (String × String)) (filename : String) : List (String × String) :=
  if filename = "formula.txt" ∨ filename = "options.json" ∨ filename = "result.yaml" then
    acc
  else
    match readFile filename with
    | none => acc
    | some s => if s = "" then acc else acc ++ [(filename, s)]

/-- The harvesting loop over the listed directory entries. -/
def harvestFiles (readFile : String → Option String) (names : List String) :
    List (String × String) :=
  names.foldl (harvestStep readFile) []

/-- Contribution of a single directory entry to the harvested map: the
keyed content when the entry survives every filter of the loop. -/
def harvestPick (readFile : String → Option String) (filename : String) :
    Option (String × String) :=
  if filename = "formula.txt" ∨ filename = "options.json" ∨ filename = "result.yaml" then
    none
  else
    match readFile filename with
    | none => none
    | some s => if s = "" then none else some (filename, s)

/-! ## The handler -/

/-- Response body (`Response` struct): `files` is the harvested-file map
(modelled as the association list the loop builds; `os.ReadDir` yields
distinct names) and `result` the augmented summary map. -/
structure Response where
  files : List (String × String)
  result : JsonObj
deriving DecidableEq

/-- What the handler hands back to fiber: an HTTP status with no body
(`c.SendStatus`), a JSON body (`c.JSON`), or a propagated panic, which
the `recover` middleware turns into a 500 outside the handler — after
the deferred cleanup has run. -/
inductive HttpResult where
  | status (code : Nat) : HttpResult
  | json (r : Response) : HttpResult
  | panicked : HttpResult
deriving DecidableEq

/-- The side effects the handler performs, in order. -/
inductive Event where
  | mkdirTemp (result : Option String) : Event
  | writeFile (path : String) (perm : Nat) (ok : Bool) : Event
  | execProver (path : String) (outDir : String) : Event
  | readFile (path : String) : Event
  | readDir (dir : String) : Event
  | removeAll (dir : String) (ok : Bool) : Event
deriving DecidableEq

/-- The oracle environment resolving every system interaction of one
request: what each call would return if performed. -/
structure Env where
  /-- Result of `os.MkdirTemp(".", "tmp-")`: the fresh directory name, or
  `none` on failure. -/
  mkdirTemp : Option String
  /-- Success of `os.WriteFile` for `formula.txt`. -/
  writeFormulaOk : Bool
  /-- Success of `os.WriteFile` for `options.json`. -/
  writeOptionsOk : Bool
  /-- Value of `runtime.GOOS`. -/
  goos : String
  /-- Whether an unexpected panic occurs while the prover runs (modelling
  any runtime panic after workspace creation; caught by the `recover`
  middleware outside the handler). -/
  panics : Bool
  /-- The combined output `cmd.CombinedOutput()` captured. -/
  stdout : String
  /-- Whether the context deadline was exceeded. -/
  timedOut : Bool
  /-- Content of `result.yaml`, or `none` when the read fails (file
  absent or unreadable). -/
  resultYaml : Option String
  /-- What `yaml.Unmarshal` yields on given content: a key-value map, or
  `none` when the content is not parseable as one. -/
  yamlParse : String → Option JsonObj
  /-- Result of `os.ReadDir` on the workspace: entry names, or `none` on failure. -/
  readDirNames : Option (List String)
  /-- Per-file read oracle for the harvesting loop, keyed by filename
  inside the workspace. -/
  readFileContent : String → Option String
  /-- Success of the deferred `os.RemoveAll`. -/
  removeOk : Bool

/-- The `prove` handler, translated line by line from the source.  It
returns the HTTP outcome together with the ordered trace of side effects.
The deferred cleanup registered right after `os.MkdirTemp` succeeds is
reflected by `deferred`, which appends the `removeAll` event on every
exit path below that point — including the panic path, where Go runs
deferred functions during unwinding before `recover` produces the 500.

Body parsing (`c.BodyParser`) is upstream of this model: the function
starts from the decoded request.  `json.MarshalIndent` on a
`map[string]any` holding JSON-decoded values cannot fail, so the
marshal-error branch is not reachable in the model and the options bytes
are `marshalIndent` of the options map (see below, C9). -/
def prove (req : Request) (env : Env) : HttpResult × List Event :=
  if !validateRequest req then (.status 400, [])
  else
    match env.mkdirTemp with
    | none => (.status 500, [.mkdirTemp none])
    | some tmp =>
      -- from here on, `defer os.RemoveAll(tmp)` is armed
      let deferred := fun (r : HttpResult) (evs : List Event) =>
        (r, .mkdirTemp (some tmp) :: evs ++ [.removeAll tmp env.removeOk])
      let wfEv := Event.writeFile (tmp ++ "/formula.txt") 0o400 env.writeFormulaOk
      if !env.writeFormulaOk then deferred (.status 500) [wfEv]
      else
        let woEv := Event.writeFile (tmp ++ "/options.json") 0o400 env.writeOptionsOk
        if !env.writeOptionsOk then deferred (.status 500) [wfEv, woEv]
        else
          let execEv := Event.execProver (proverPath req.trace env.goos) tmp
          if env.panics then deferred .panicked [wfEv, woEv, execEv]
          else
            let timeout := env.timedOut
            let evs := [wfEv, woEv, execEv, Event.readFile (tmp ++ "/result.yaml")]
            match env.resultYaml with
            | none => deferred (.status 500) evs
            | some content =>
              match env.yamlParse content with
              | none => deferred (.status 500) evs
              | some summary =>
                let result := augmentResult summary env.stdout timeout
                match env.readDirNames with
                | none =>
                  -- return response without files
                  deferred (.json { files := [], result := result }) (evs ++ [.readDir tmp])
                | some names =>
                  let files := harvestFiles env.readFileContent names
                  deferred (.json { files := files, result := result })
                    (evs ++ [.readDir tmp] ++
                      names.map (fun n => Event.readFile (tmp ++ "/" ++ n)))


/-! ## The strict variant (older revision of `main.go`)

An earlier revision of the handler: request fields are plain strings, the
timeout has no upper bound, the response always carries an `Output` text
field and a boolean `Timeout` field, there is no summary file, and the
directory loop harvests every readable file with no exclusions.  Only
what claim C2 needs is modelled: the control flow from the executor to
the response. -/

/-- Request body of the strict variant. -/
structure RequestS where
  formula : String
  options : String
  timeout : Int

/-- Validator tags of the strict variant: `formula` and `options` are
`required` non-empty strings, `timeout` is `required,min=1`. -/
def validateRequestS (r : RequestS) : Bool :=
  !(r.formula = "") && !(r.options = "") && (1 ≤ r.timeout)

/-- Response body of the strict variant: the `Timeout` field is always
present. -/
structure ResponseS where
  files : List (String × String)
  output : String
  timeout : Bool
deriving DecidableEq

/-- HTTP outcome of the strict variant. -/
inductive HttpResultS where
  | status (code : Nat) : HttpResultS
  | json (r : ResponseS) : HttpResultS
deriving DecidableEq

/-- Oracle environment for the strict variant. -/
structure EnvS where
  mkdirTemp : Option String
  writeFormulaOk : Bool
  writeOptionsOk : Bool
  stdout : String
  timedOut : Bool
  readDirNames : Option (List String)
  readFileContent : String → Option String
  removeOk : Bool

/-- Directory loop of the strict variant: every entry whose read succeeds
is added, with no reserved names and no empty-content filtering. -/
def harvestAllFiles (readFile : String → Option String) (names : List String) :
    List (String × String) :=
  names.foldl
    (fun acc filename =>
      match readFile filename with
      | none => acc
      | some s => acc ++ [(filename, s)])
    []

/-- The strict-variant handler, translated from the older `main.go`. -/
def proveStrict (req : RequestS) (env : EnvS) : HttpResultS :=
  if !validateRequestS req then .status 400
  else
    match env.mkdirTemp with
    | none => .status 500
    | some _out =>
      if !env.writeFormulaOk then .status 500
      else if !env.writeOptionsOk then .status 500
      else
        let response : ResponseS := { files := [], output := env.stdout, timeout := env.timedOut }
        match env.readDirNames with
        | none =>
          -- return response without files
          .json response
        | some names =>
          .json { response with files := harvestAllFiles env.readFileContent names }

/-! ## JSON serialization of the options map

The handler serializes the options map with
`json.MarshalIndent(req.Options, "", "  ")` before writing it to
`options.json`.  The serializer below reproduces the output format of
`encoding/json` (two-space indentation, `": "` key separator, string
escaping including the default HTML escapes), and the parser below is a
standard recursive-descent JSON reader, modelling the consumer that
decodes the artifact inside the workspace. -/

/-- Hexadecimal digit character (lower case), as `encoding/json` emits. -/
def hexDigitChar (n : Nat) : Char := if n < 10 then Char.ofNat (48 + n) else Char.ofNat (87 + n)

/-- Escaping of one character inside a JSON string, as `encoding/json`
does with its default HTML escaping: quote, backslash, the common
control escapes, `\u00XX` for other control characters, `<`,
`>`, `&` for angle brackets and ampersand, and the two
line-separator code points. -/
def escChar (c : Char) : List Char :=
  if c = '"' then ['\\', '"']
  else if c = '\\' then ['\\', '\\']
  else if c = '\n' then ['\\', 'n']
  else if c = '\r' then ['\\', 'r']
  else if c = '\t' then ['\\', 't']
  else if c.toNat < 32 then
    ['\\', 'u', '0', '0', hexDigitChar (c.toNat / 16), hexDigitChar (c.toNat % 16)]
  else if c = '<' then ['\\', 'u', '0', '0', '3', 'c']
  else if c = '>' then ['\\', 'u', '0', '0', '3', 'e']
  else if c = '&' then ['\\', 'u', '0', '0', '2', '6']
  else if c.toNat = 8232 then ['\\', 'u', '2', '0', '2', '8']
  else if c.toNat = 8233 then ['\\', 'u', '2', '0', '2', '9']
  else [c]

/-- Escaped body of a JSON string literal. -/
def escString (s : String) : List Char := s.data.flatMap escChar

/-- Decimal digit character. -/
def digitChar (d : Nat) : Char := Char.ofNat (48 + d)

/-- Big-endian decimal digits of a positive number, by fuel (`n ≤ fuel`). -/
def serNatCore : Nat → Nat → List Char
  | 0, _ => []
  | fuel + 1, n => if n = 0 then [] else serNatCore fuel (n / 10) ++ [digitChar (n % 10)]

/-- Decimal representation of a natural number. -/
def serNat (n : Nat) : List Char := if n = 0 then ['0'] else serNatCore n n

/-- Decimal representation of an integer. -/
def serInt (n : Int) : List Char :=
  if n < 0 then '-' :: serNat n.natAbs else serNat n.natAbs

mutual

/-- Serialization of a JSON value in the `json.MarshalIndent(v, "", "  ")`
format; `ind` is the current indentation (the closing bracket of a
container is written at `ind`, its entries at `ind` plus two spaces). -/
def serV (ind : List Char) : JsonV → List Char
  | .num n => serInt n
  | .str s => ['"'] ++ escString s ++ ['"']
  | .null => ['n', 'u'] ++ ['l', 'l']
  | .bool true => ['t', 'r'] ++ ['u', 'e']
  | .bool false => ['f', 'a', 'l'] ++ ['s', 'e']
  | .arr .nil => ['[', ']']
  | .arr (.cons v tl) =>
    ['[', '\n'] ++ serElems (ind ++ [' ', ' ']) (.cons v tl) ++ ['\n'] ++ ind ++ [']']
  | .obj .nil => ['\x7b', '\x7d']
  | .obj (.cons k v tl) =>
    ['\x7b', '\n'] ++ serMembers (ind ++ [' ', ' ']) (.cons k v tl) ++ ['\n'] ++ ind ++ ['\x7d']

/-- Serialization of array elements, one per line at indentation `ind`. -/
def serElems (ind : List Char) : JsonList → List Char
  | .nil => []
  | .cons v .nil => ind ++ serV ind v
  | .cons v (.cons w tl) =>
    ind ++ serV ind v ++ [',', '\n'] ++ serElems ind (.cons w tl)

/-- Serialization of object members, one per line at indentation `ind`. -/
def serMembers (ind : List Char) : JsonObj → List Char
  | .nil => []
  | .cons k v .nil => ind ++ ['"'] ++ escString k ++ ['"', ':', ' '] ++ serV ind v
  | .cons k v (.cons k2 w tl) =>
    ind ++ ['"'] ++ escString k ++ ['"', ':', ' '] ++ serV ind v ++ [',', '\n'] ++
      serMembers ind (.cons k2 w tl)

end

/-- The byte content of `options.json`: `json.MarshalIndent(v, "", "  ")`. -/
def marshalIndent (v : JsonV) : String := String.mk (serV [] v)

/-! ## JSON parsing (the consumer of `options.json`) -/

/-- Whitespace characters of JSON. -/
def isWsChar (c : Char) : Bool := c = ' ' || c = '\n' || c = '\t' || c = '\r'

/-- Skip leading whitespace. -/
def skipWs : List Char → List Char
  | [] => []
  | c :: r => if isWsChar c then skipWs r else c :: r

/-- Digit characters. -/
def isDigitChar (c : Char) : Bool := 48 ≤ c.toNat && c.toNat ≤ 57

/-- Value of a hexadecimal digit character. -/
def hexVal? (c : Char) : Option Nat :=
  if 48 ≤ c.toNat ∧ c.toNat ≤ 57 then some (c.toNat - 48)
  else if 97 ≤ c.toNat ∧ c.toNat ≤ 102 then some (c.toNat - 87)
  else if 65 ≤ c.toNat ∧ c.toNat ≤ 70 then some (c.toNat - 55)
  else none

/-- Body of a JSON string literal after the opening quote: unescapes up
to the closing quote, returning the decoded characters and what follows
the closing quote. -/
def parseStringBody : List Char → Option (List Char × List Char)
  | [] => none
  | c :: rest =>
    if c = '"' then some ([], rest)
    else if c = '\\' then
      match rest with
      | [] => none
      | e :: r =>
        if e = '"' then (parseStringBody r).map (fun p => ('"' :: p.1, p.2))
        else if e = '\\' then (parseStringBody r).map (fun p => ('\\' :: p.1, p.2))
        else if e = '/' then (parseStringBody r).map (fun p => ('/' :: p.1, p.2))
        else if e = 'n' then (parseStringBody r).map (fun p => ('\n' :: p.1, p.2))
        else if e = 'r' then (parseStringBody r).map (fun p => ('\r' :: p.1, p.2))
        else if e = 't' then (parseStringBody r).map (fun p => ('\t' :: p.1, p.2))
        else if e = 'b' then (parseStringBody r).map (fun p => (Char.ofNat 8 :: p.1, p.2))
        else if e = 'f' then (parseStringBody r).map (fun p => (Char.ofNat 12 :: p.1, p.2))
        else if e = 'u' then
          match r with
          | h1 :: h2 :: h3 :: h4 :: r2 =>
            match hexVal? h1, hexVal? h2, hexVal? h3, hexVal? h4 with
            | some a, some b, some c2, some d =>
              (parseStringBody r2).map
                (fun p => (Char.ofNat (((a * 16 + b) * 16 + c2) * 16 + d) :: p.1, p.2))
            | _, _, _, _ => none
          | _ => none
        else none
    else (parseStringBody rest).map (fun p => (c :: p.1, p.2))

/-- Greedy decimal accumulation. -/
def parseNatLoop : List Char → Nat → Nat × List Char
  | [], acc => (acc, [])
  | c :: rest, acc =>
    if isDigitChar c then parseNatLoop rest (10 * acc + (c.toNat - 48)) else (acc, c :: rest)

/-- Integer literal: an optional minus sign followed by decimal digits. -/
def parseNumber : List Char → Option (Int × List Char)
  | [] => none
  | c :: rest =>
    if c = '-' then
      match rest with
      | [] => none
      | d :: _ =>
        if isDigitChar d then
          let p := parseNatLoop rest 0
          some (-(p.1 : Int), p.2)
        else none
    else if isDigitChar c then
      let p := parseNatLoop (c :: rest) 0
      some ((p.1 : Int), p.2)
    else none

mutual

/-- Recursive-descent JSON value reader; `fuel` bounds the recursion
depth and only grows with the nesting of the input. -/
def parseValue : Nat → List Char → Option (JsonV × List Char)
  | 0, _ => none
  | fuel + 1, cs =>
    match skipWs cs with
    | [] => none
    | c :: r =>
      if c = '\x7b' then
        match skipWs r with
        | [] => none
        | c2 :: r2 =>
          if c2 = '\x7d' then some (.obj .nil, r2)
          else
            match parseMembers fuel (c2 :: r2) with
            | none => none
            | some (fs, r3) => some (.obj fs, r3)
      else if c = '[' then
        match skipWs r with
        | [] => none
        | c2 :: r2 =>
          if c2 = ']' then some (.arr .nil, r2)
          else
            match parseElems fuel (c2 :: r2) with
            | none => none
            | some (xs, r3) => some (.arr xs, r3)
      else if c = '"' then
        match parseStringBody r with
        | none => none
        | some (s, r2) => some (.str (String.mk s), r2)
      else if c = 'n' then
        match r with
        | u :: l1 :: l2 :: r2 =>
          if u = 'u' ∧ l1 = 'l' ∧ l2 = 'l' then some (.null, r2) else none
        | _ => none
      else if c = 't' then
        match r with
        | a :: b :: d :: r2 =>
          if a = 'r' ∧ b = 'u' ∧ d = 'e' then some (.bool true, r2) else none
        | _ => none
      else if c = 'f' then
        match r with
        | a :: b :: d :: e :: r2 =>
          if a = 'a' ∧ b = 'l' ∧ d = 's' ∧ e = 'e' then some (.bool false, r2) else none
        | _ => none
      else
        match parseNumber (c :: r) with
        | none => none
        | some (n, r2) => some (.num n, r2)

/-- Members of a JSON object, after the opening brace and at least one
member is known to follow; consumes the closing brace. -/
def parseMembers : Nat → List Char → Option (JsonObj × List Char)
  | 0, _ => none
  | fuel + 1, cs =>
    match skipWs cs with
    | [] => none
    | c :: r =>
      if c = '"' then
        match parseStringBody r with
        | none => none
        | some (k, r1) =>
          match skipWs r1 with
          | [] => none
          | c2 :: r2 =>
            if c2 = ':' then
              match parseValue fuel r2 with
              | none => none
              | some (v, r3) =>
                match skipWs r3 with
                | [] => none
                | c3 :: r4 =>
                  if c3 = ',' then
                    match parseMembers fuel r4 with
                    | none => none
                    | some (tl, r5) => some (.cons (String.mk k) v tl, r5)
                  else if c3 = '\x7d' then some (.cons (String.mk k) v .nil, r4)
                  else none
            else none
      else none

/-- Elements of a JSON array, after the opening bracket and at least one
element is known to follow; consumes the closing bracket. -/
def parseElems : Nat → List Char → Option (JsonList × List Char)
  | 0, _ => none
  | fuel + 1, cs =>
    match parseValue fuel cs with
    | none => none
    | some (v, r) =>
      match skipWs r with
      | [] => none
      | c :: r2 =>
        if c = ',' then
          match parseElems fuel r2 with
          | none => none
          | some (tl, r3) => some (.cons v tl, r3)
        else if c = ']' then some (.cons v .nil, r2)
        else none

end

/-- Parsing of a whole document: a value followed by only whitespace. -/
def parseJson (s : String) : Option JsonV :=
  match parseValue (s.data.length + 1) s.data with
  | none => none
  | some (v, rest) => if skipWs rest = [] then some v else none

mutual

/-- Recursion-depth measure of a value, bounding the parser fuel. -/
def sizeV : JsonV → Nat
  | .null => 1
  | .bool _ => 1
  | .num _ => 1
  | .str _ => 1
  | .arr xs => 1 + sizeL xs
  | .obj fs => 1 + sizeO fs

/-- Recursion-depth measure of array elements. -/
def sizeL : JsonList → Nat
  | .nil => 1
  | .cons v tl => 1 + sizeV v + sizeL tl

/-- Recursion-depth measure of object members. -/
def sizeO : JsonObj → Nat
  | .nil => 1
  | .cons _ v tl => 1 + sizeV v + sizeO tl

end

/-! # Theorems -/

/-! ## Map lemmas -/

theorem JsonObj.lookup_set_self (m : JsonObj) (k : String) (v : JsonV) :
    (m.set k v).lookup k = some v := by
  match m with
  | .nil => simp [JsonObj.set, JsonObj.lookup]
  | .cons k2 w tl =>
    by_cases h : k2 = k
    · simp [JsonObj.set, JsonObj.lookup, h]
    · simp [JsonObj.set, JsonObj.lookup, h, JsonObj.lookup_set_self tl k v]

theorem JsonObj.lookup_set_ne (m : JsonObj) (k k2 : String) (v : JsonV) (h : k ≠ k2) :
    (m.set k v).lookup k2 = m.lookup k2 := by
  match m with
  | .nil => simp [JsonObj.set, JsonObj.lookup, h]
  | .cons k3 w tl =>
    by_cases h3 : k3 = k
    · subst h3; simp [JsonObj.set, JsonObj.lookup, h]
    · simp [JsonObj.set, JsonObj.lookup, h3, JsonObj.lookup_set_ne tl k k2 v h]

/-! ## Harvesting lemmas -/

theorem harvestStep_eq (rf : String → Option String) (acc : List (String × String))
    (n : String) : harvestStep rf acc n = acc ++ (harvestPick rf n).toList := by
  unfold harvestStep harvestPick
  split
  · simp
  · rcases rf n with _ | s
    · simp
    · by_cases h : s = "" <;> simp [h]

theorem harvestFiles_eq_filterMap (rf : String → Option String) (names : List String) :
    harvestFiles rf names = names.filterMap (harvestPick rf) := by
  have key : ∀ (l : List String) (acc : List (String × String)),
      l.foldl (harvestStep rf) acc = acc ++ l.filterMap (harvestPick rf) := by
    intro l
    induction l with
    | nil => simp
    | cons n ns ih =>
      intro acc
      rw [List.foldl_cons, ih, harvestStep_eq, List.filterMap_cons]
      rcases h : harvestPick rf n with _ | p <;> simp [h]
  simpa [harvestFiles] using key names []

theorem harvestPick_eq_some (rf : String → Option String) (n fn c : String) :
    harvestPick rf n = some (fn, c) ↔
      (n = fn ∧ ¬(n = "formula.txt" ∨ n = "options.json" ∨ n = "result.yaml") ∧
        rf n = some c ∧ c ≠ "") := by
  unfold harvestPick
  split
  · simp_all
  · rcases h : rf n with _ | s
    · simp_all
    · by_cases he : s = "" <;> simp_all [eq_comm, and_comm]

/-- C4: the harvesting step puts into the file map exactly the directory
entries that are not one of the two input filenames or the summary
filename, whose individual read succeeded, and whose content is
non-empty; each survivor is keyed by its filename and mapped to its
content. -/
theorem harvest_files_exact (rf : String → Option String) (names : List String)
    (fn c : String) :
    (fn, c) ∈ harvestFiles rf names ↔
      (fn ∈ names ∧ fn ≠ "formula.txt" ∧ fn ≠ "options.json" ∧ fn ≠ "result.yaml" ∧
        rf fn = some c ∧ c ≠ "") := by
  rw [harvestFiles_eq_filterMap, List.mem_filterMap]
  constructor
  · rintro ⟨n, hn, hp⟩
    rcases (harvestPick_eq_some rf n fn c).mp hp with ⟨rfl, hex, hrf, hc⟩
    push_neg at hex
    exact ⟨hn, hex.1, hex.2.1, hex.2.2, hrf, hc⟩
  · rintro ⟨hn, h1, h2, h3, hrf, hc⟩
    exact ⟨fn, hn, (harvestPick_eq_some rf fn fn c).mpr
      ⟨rfl, by simp [h1, h2, h3], hrf, hc⟩⟩

/-- Witness for C4 at a concrete directory state: a non-reserved,
readable, non-empty file is harvested. -/
theorem harvest_files_exact_witness :
    ("proof.log", "ok") ∈ harvestFiles
      (fun n => if n = "proof.log" then some "ok" else if n = "empty.txt" then some "" else none)
      ["formula.txt", "proof.log", "empty.txt"] :=
  (harvest_files_exact _ _ _ _).mpr (by decide)

/-- C10: the augmentation step overwrites any binary-provided summary
keys: after augmentation, a non-empty captured output is always found
under the key stdout, and a timed-out execution always yields the value
true under the key timeout, whatever bindings the parsed summary already
held for those keys. -/
theorem augment_result_overwrites (m : JsonObj) (s : String) (t : Bool) :
    (s ≠ "" → (augmentResult m s t).lookup ("stdout") = some (.str s)) ∧
    (t = true → (augmentResult m s t).lookup ("timeout") = some (.bool true)) := by
  constructor
  · intro hs
    unfold augmentResult
    cases t <;>
      simp [hs, JsonObj.lookup_set_self,
        JsonObj.lookup_set_ne _ "timeout" "stdout" _ (by decide)]
  · intro ht
    subst ht
    unfold augmentResult
    simp [JsonObj.lookup_set_self]

/-- Witness for C10: a summary that already binds stdout and timeout
loses both values to the augmentation. -/
theorem augment_result_overwrites_witness :
    (augmentResult (.cons "stdout" (.str "from-binary") (.cons "timeout" (.str "no") .nil))
        "captured" true).lookup ("stdout") = some (.str "captured") ∧
    (augmentResult (.cons "stdout" (.str "from-binary") (.cons "timeout" (.str "no") .nil))
        "captured" true).lookup ("timeout") = some (.bool true) :=
  ⟨(augment_result_overwrites _ "captured" true).1 (by decide),
   (augment_result_overwrites _ "captured" true).2 rfl⟩

/-- C6: a job is accepted by the validation gate exactly when the formula
is non-empty, the options map is non-nil and the timeout lies within 1
and 10; any other request is rejected with a 400 client error before any
workspace is created and with an empty side-effect trace. -/
theorem validation_gate :
    (∀ req : Request, validateRequest req = true ↔
      (req.options ≠ none ∧ req.formula ≠ "" ∧ 1 ≤ req.timeout ∧ req.timeout ≤ 10)) ∧
    (∀ (req : Request) (env : Env), validateRequest req = false →
      prove req env = (.status 400, [])) := by
  constructor
  · intro req
    simp [validateRequest, Option.isSome_iff_ne_none, and_assoc]
  · intro req env h
    simp [prove, h]

/-- Witness for C6: a request with an out-of-range timeout is rejected
with a 400 and no side effects. -/
theorem validation_gate_witness :
    validateRequest ⟨some .nil, "P -> P", 11, false⟩ = false ∧
    prove ⟨some .nil, "P -> P", 11, false⟩
      { mkdirTemp := some "tmp-1", writeFormulaOk := true, writeOptionsOk := true,
        goos := "linux", panics := false, stdout := "", timedOut := false,
        resultYaml := none, yamlParse := fun _ => none, readDirNames := none,
        readFileContent := fun _ => none, removeOk := true } = (.status 400, []) :=
  ⟨by decide, validation_gate.2 _ _ (by decide)⟩

/-- C8: the invoked binary path is a pure function of the request trace
flag and the host platform, and has exactly the documented shape — the
base name prover, with -trace appended when tracing is requested, with
-windows.exe appended on Windows, inside the bin directory. -/
theorem prover_path_shape (tr : Bool) (goos : String) :
    proverPath tr goos =
      (if goos = "windows" then ("bin\\") else ("bin/")) ++ ("prover") ++
        (if tr then ("-trace") else ("")) ++
        (if goos = "windows" then ("-windows.exe") else ("")) := by
  by_cases hw : goos = "windows"
  · subst hw
    cases tr <;> decide
  · cases tr <;>
      simp only [proverPath, filepathJoin, filepathClean, joinParts, pathSep, hw,
        if_false, if_true, ite_false, ite_true] <;>
      decide

/-- C3: when the summary file result.yaml cannot be read after execution,
or its content does not parse as a key-value map, the request fails with
a 500 server error; the status outcome carries no result body by
construction. -/
theorem summary_failure_fatal (req : Request) (env : Env) (tmp : String)
    (hv : validateRequest req = true) (hm : env.mkdirTemp = some tmp)
    (hwf : env.writeFormulaOk = true) (hwo : env.writeOptionsOk = true)
    (hp : env.panics = false)
    (hy : env.resultYaml = none ∨
      ∃ s, env.resultYaml = some s ∧ env.yamlParse s = none) :
    (prove req env).1 = .status 500 := by
  rcases hy with hy | ⟨s, hy, hps⟩
  · simp [prove, hv, hm, hwf, hwo, hp, hy]
  · simp [prove, hv, hm, hwf, hwo, hp, hy, hps]

/-- Witness for C3: a run whose workspace lacks result.yaml yields a 500. -/
theorem summary_failure_fatal_witness :
    (prove ⟨some .nil, "P -> P", 2, false⟩
      { mkdirTemp := some "tmp-1", writeFormulaOk := true, writeOptionsOk := true,
        goos := "linux", panics := false, stdout := "out", timedOut := false,
        resultYaml := none, yamlParse := fun _ => none, readDirNames := some [],
        readFileContent := fun _ => none, removeOk := true }).1 = .status 500 :=
  summary_failure_fatal _ _ "tmp-1" (by decide) rfl rfl rfl rfl (Or.inl rfl)

/-- Counterexample to C5 as stated: at this concrete request and
environment the workspace listing fails after execution, yet the handler
does not return a server-side error — it returns the success-shaped JSON
response (with no files), contradicting the claim that a listing failure
is fatal. -/
theorem readdir_failure_not_fatal_cex :
    (prove ⟨some .nil, "P -> P", 2, false⟩
      { mkdirTemp := some "tmp-1", writeFormulaOk := true, writeOptionsOk := true,
        goos := "linux", panics := false, stdout := "", timedOut := false,
        resultYaml := some "valid: true",
        yamlParse := fun _ => some (.cons "valid" (.bool true) .nil),
        readDirNames := none,
        readFileContent := fun _ => none, removeOk := true }).1 =
      .json { files := [], result := .cons "valid" (.bool true) .nil } ∧
    (prove ⟨some .nil, "P -> P", 2, false⟩
      { mkdirTemp := some "tmp-1", writeFormulaOk := true, writeOptionsOk := true,
        goos := "linux", panics := false, stdout := "", timedOut := false,
        resultYaml := some "valid: true",
        yamlParse := fun _ => some (.cons "valid" (.bool true) .nil),
        readDirNames := none,
        readFileContent := fun _ => none, removeOk := true }).1 ≠ .status 500 := by
  constructor <;> decide

/-- C5 amended: a failure to list the workspace directory after execution
is not fatal — the handler logs it and returns the already-computed
success-shaped JSON response with an empty file map. -/
theorem readdir_failure_returns_response_without_files (req : Request) (env : Env)
    (tmp s : String) (summary : JsonObj)
    (hv : validateRequest req = true) (hm : env.mkdirTemp = some tmp)
    (hwf : env.writeFormulaOk = true) (hwo : env.writeOptionsOk = true)
    (hp : env.panics = false)
    (hy : env.resultYaml = some s) (hps : env.yamlParse s = some summary)
    (hrd : env.readDirNames = none) :
    (prove req env).1 =
      .json { files := [], result := augmentResult summary env.stdout env.timedOut } := by
  simp [prove, hv, hm, hwf, hwo, hp, hy, hps, hrd]

/-- Witness for the amended C5. -/
theorem readdir_failure_returns_response_without_files_witness :
    (prove ⟨some .nil, "P -> P", 2, false⟩
      { mkdirTemp := some "tmp-1", writeFormulaOk := true, writeOptionsOk := true,
        goos := "linux", panics := false, stdout := "", timedOut := false,
        resultYaml := some "valid: true",
        yamlParse := fun _ => some (.cons "valid" (.bool true) .nil),
        readDirNames := none,
        readFileContent := fun _ => none, removeOk := true }).1 =
      .json { files := [],
              result := augmentResult (.cons "valid" (.bool true) .nil) "" false } :=
  readdir_failure_returns_response_without_files _ _ "tmp-1" "valid: true" _
    (by decide) rfl rfl rfl rfl rfl rfl rfl

theorem lookup_timeout_augment (m : JsonObj) (s : String) :
    (augmentResult m s true).lookup ("timeout") = some (.bool true) := by
  unfold augmentResult
  simp [JsonObj.lookup_set_self]

/-- C2: a deadline-exceeded execution does not abort the request.  In the
current (lenient) handler the pipeline still reads the summary file, still
enumerates the workspace when the summary parses, and any JSON result it
produces reports timeout as true; in the strict variant the response is
produced with its Timeout field true. -/
theorem timeout_soft_failure :
    (∀ (req : Request) (env : Env) (tmp : String),
      validateRequest req = true → env.mkdirTemp = some tmp →
      env.writeFormulaOk = true → env.writeOptionsOk = true →
      env.panics = false → env.timedOut = true →
      (Event.readFile (tmp ++ "/result.yaml") ∈ (prove req env).2 ∧
       (∀ s summary, env.resultYaml = some s → env.yamlParse s = some summary →
         Event.readDir tmp ∈ (prove req env).2) ∧
       (∀ r, (prove req env).1 = .json r →
         r.result.lookup ("timeout") = some (.bool true)))) ∧
    (∀ (req : RequestS) (env : EnvS),
      validateRequestS req = true → env.mkdirTemp ≠ none →
      env.writeFormulaOk = true → env.writeOptionsOk = true →
      env.timedOut = true →
      ∃ r, proveStrict req env = .json r ∧ r.timeout = true) := by
  constructor
  · intro req env tmp hv hm hwf hwo hp ht
    refine ⟨?_, ?_, ?_⟩
    · rcases hry : env.resultYaml with _ | content
      · simp [prove, hv, hm, hwf, hwo, hp, hry]
      · rcases hyp : env.yamlParse content with _ | summary
        · simp [prove, hv, hm, hwf, hwo, hp, hry, hyp]
        · rcases hrd : env.readDirNames with _ | names <;>
            simp [prove, hv, hm, hwf, hwo, hp, hry, hyp, hrd]
    · intro s summary hs hps
      rcases hrd : env.readDirNames with _ | names <;>
        simp [prove, hv, hm, hwf, hwo, hp, hs, hps, hrd]
    · intro r hr
      rcases hry : env.resultYaml with _ | content
      · simp [prove, hv, hm, hwf, hwo, hp, hry] at hr
      · rcases hyp : env.yamlParse content with _ | summary
        · simp [prove, hv, hm, hwf, hwo, hp, hry, hyp] at hr
        · rcases hrd : env.readDirNames with _ | names <;>
            simp [prove, hv, hm, hwf, hwo, hp, hry, hyp, hrd] at hr <;>
            (rw [← hr]; simp [ht, lookup_timeout_augment])
  · intro req env hv hm hwf hwo ht
    rcases hmm : env.mkdirTemp with _ | out
    · exact absurd hmm hm
    · rcases hrd : env.readDirNames with _ | names
      · refine ⟨{ files := [], output := env.stdout, timeout := env.timedOut }, ?_, ht⟩
        simp [proveStrict, hv, hmm, hwf, hwo, hrd]
      · refine ⟨{ files := harvestAllFiles env.readFileContent names,
                  output := env.stdout, timeout := env.timedOut }, ?_, ht⟩
        simp [proveStrict, hv, hmm, hwf, hwo, hrd]

/-- Witness for C2: a timed-out run still reads the summary and, in the
strict variant, reports Timeout true. -/
theorem timeout_soft_failure_witness :
    Event.readFile ("tmp-1/result.yaml") ∈
      (prove ⟨some .nil, "P -> P", 2, false⟩
        { mkdirTemp := some "tmp-1", writeFormulaOk := true, writeOptionsOk := true,
          goos := "linux", panics := false, stdout := "partial", timedOut := true,
          resultYaml := some "valid: unknown",
          yamlParse := fun _ => some (.cons "valid" (.str "unknown") .nil),
          readDirNames := some ["proof.log"],
          readFileContent := fun _ => some "ok", removeOk := true }).2 ∧
    (∃ r, proveStrict ⟨"P -> P", "o", 2⟩
        { mkdirTemp := some "out-1", writeFormulaOk := true, writeOptionsOk := true,
          stdout := "", timedOut := true, readDirNames := none,
          readFileContent := fun _ => none, removeOk := true } = .json r ∧
      r.timeout = true) :=
  ⟨(timeout_soft_failure.1 _ _ "tmp-1" (by decide) rfl rfl rfl rfl rfl).1,
   timeout_soft_failure.2 _ _ (by decide) (by decide) rfl rfl rfl⟩

/-- C7: every file-write the handler performs on the workspace — on any
path, for both input artifacts — uses mode 0400: owner read only, with
no write bit, no execute bit and no group or world access. -/
theorem input_writes_owner_read_only (req : Request) (env : Env)
    (path : String) (perm : Nat) (ok : Bool)
    (h : Event.writeFile path perm ok ∈ (prove req env).2) :
    perm = 0o400 ∧ ownerPerm perm = 4 ∧ groupPerm perm = 0 ∧ worldPerm perm = 0 := by
  have key : perm = 0o400 := by
    by_cases hv : validateRequest req
    · rcases hm : env.mkdirTemp with _ | tmp
      · simp [prove, hv, hm] at h
      · cases hwf : env.writeFormulaOk
        · simp [prove, hv, hm, hwf] at h
          tauto
        · cases hwo : env.writeOptionsOk
          · simp [prove, hv, hm, hwf, hwo] at h
            tauto
          · cases hpan : env.panics
            · rcases hry : env.resultYaml with _ | content
              · simp [prove, hv, hm, hwf, hwo, hpan, hry] at h
                tauto
              · rcases hyp : env.yamlParse content with _ | summary
                · simp [prove, hv, hm, hwf, hwo, hpan, hry, hyp] at h
                  tauto
                · rcases hrd : env.readDirNames with _ | names <;>
                    simp [prove, hv, hm, hwf, hwo, hpan, hry, hyp, hrd] at h <;>
                    tauto
            · simp [prove, hv, hm, hwf, hwo, hpan] at h
              tauto
    · simp [prove, hv] at h
  subst key
  exact ⟨rfl, by decide, by decide, by decide⟩

/-- Witness for C7: the formula artifact write of a concrete run carries
mode 0400 and the theorem yields its permission facts. -/
theorem input_writes_owner_read_only_witness :
    ownerPerm 0o400 = 4 ∧ groupPerm 0o400 = 0 ∧ worldPerm 0o400 = 0 :=
  (input_writes_owner_read_only ⟨some .nil, "P -> P", 2, false⟩
    { mkdirTemp := some "tmp-1", writeFormulaOk := true, writeOptionsOk := true,
      goos := "linux", panics := false, stdout := "", timedOut := false,
      resultYaml := none, yamlParse := fun _ => none, readDirNames := none,
      readFileContent := fun _ => none, removeOk := true }
    ("tmp-1/formula.txt") 0o400 true (by decide)).2

/-! ## Trace-shape lemmas for the cleanup invariant -/

theorem prove_trace_shape (req : Request) (env : Env) (tmp : String)
    (hv : validateRequest req = true) (hm : env.mkdirTemp = some tmp) :
    ∃ evs : List Event,
      (prove req env).2 =
        (Event.mkdirTemp (some tmp) :: evs) ++ [Event.removeAll tmp env.removeOk] ∧
      evs.countP (fun e => match e with | Event.removeAll _ _ => true | _ => false) = 0 ∧
      evs.countP (fun e => match e with | Event.mkdirTemp _ => true | _ => false) = 0 := by
  cases hwf : env.writeFormulaOk
  · refine ⟨[Event.writeFile (tmp ++ "/formula.txt") 0o400 env.writeFormulaOk], ?_, ?_, ?_⟩ <;>
      simp [prove, hv, hm, hwf]
  · cases hwo : env.writeOptionsOk
    · refine ⟨[Event.writeFile (tmp ++ "/formula.txt") 0o400 env.writeFormulaOk,
               Event.writeFile (tmp ++ "/options.json") 0o400 env.writeOptionsOk],
        ?_, ?_, ?_⟩ <;> simp [prove, hv, hm, hwf, hwo]
    · cases hpan : env.panics
      · rcases hry : env.resultYaml with _ | content
        · refine ⟨[Event.writeFile (tmp ++ "/formula.txt") 0o400 env.writeFormulaOk,
                   Event.writeFile (tmp ++ "/options.json") 0o400 env.writeOptionsOk,
                   Event.execProver (proverPath req.trace env.goos) tmp,
                   Event.readFile (tmp ++ "/result.yaml")], ?_, ?_, ?_⟩ <;>
            simp [prove, hv, hm, hwf, hwo, hpan, hry]
        · rcases hyp : env.yamlParse content with _ | summary
          · refine ⟨[Event.writeFile (tmp ++ "/formula.txt") 0o400 env.writeFormulaOk,
                     Event.writeFile (tmp ++ "/options.json") 0o400 env.writeOptionsOk,
                     Event.execProver (proverPath req.trace env.goos) tmp,
                     Event.readFile (tmp ++ "/result.yaml")], ?_, ?_, ?_⟩ <;>
              simp [prove, hv, hm, hwf, hwo, hpan, hry, hyp]
          · rcases hrd : env.readDirNames with _ | names
            · refine ⟨[Event.writeFile (tmp ++ "/formula.txt") 0o400 env.writeFormulaOk,
                       Event.writeFile (tmp ++ "/options.json") 0o400 env.writeOptionsOk,
                       Event.execProver (proverPath req.trace env.goos) tmp,
                       Event.readFile (tmp ++ "/result.yaml"),
                       Event.readDir tmp], ?_, ?_, ?_⟩ <;>
                simp [prove, hv, hm, hwf, hwo, hpan, hry, hyp, hrd]
            · refine ⟨[Event.writeFile (tmp ++ "/formula.txt") 0o400 env.writeFormulaOk,
                       Event.writeFile (tmp ++ "/options.json") 0o400 env.writeOptionsOk,
                       Event.execProver (proverPath req.trace env.goos) tmp,
                       Event.readFile (tmp ++ "/result.yaml"),
                       Event.readDir tmp] ++
                        names.map (fun n => Event.readFile (tmp ++ "/" ++ n)), ?_, ?_, ?_⟩ <;>
                simp [prove, hv, hm, hwf, hwo, hpan, hry, hyp, hrd,
                  List.countP_append, List.countP_map, Function.comp]
      · refine ⟨[Event.writeFile (tmp ++ "/formula.txt") 0o400 env.writeFormulaOk,
                 Event.writeFile (tmp ++ "/options.json") 0o400 env.writeOptionsOk,
                 Event.execProver (proverPath req.trace env.goos) tmp], ?_, ?_, ?_⟩ <;>
          simp [prove, hv, hm, hwf, hwo, hpan]

theorem prove_mem_mkdir (req : Request) (env : Env) (tmp : String)
    (h : Event.mkdirTemp (some tmp) ∈ (prove req env).2) :
    validateRequest req = true ∧ env.mkdirTemp = some tmp := by
  by_cases hv : validateRequest req
  · rcases hm : env.mkdirTemp with _ | t
    · simp [prove, hv, hm] at h
    · obtain ⟨evs, htr, -, hmk⟩ := prove_trace_shape req env t hv hm
      rw [htr] at h
      rcases List.mem_append.mp h with h | h
      · rcases List.mem_cons.mp h with h | h
        · have : tmp = t := by simpa using h
          subst this
          exact ⟨hv, rfl⟩
        · have := List.countP_eq_zero.mp hmk _ h
          simp at this
      · simp at h
  · simp [prove, hv] at h

theorem prove_res_removeOk (req : Request) (env : Env) (b : Bool) :
    (prove req { env with removeOk := b }).1 = (prove req env).1 := by
  by_cases hv : validateRequest req
  · rcases hm : env.mkdirTemp with _ | t
    · simp [prove, hv, hm]
    · cases hwf : env.writeFormulaOk
      · simp [prove, hv, hm, hwf]
      · cases hwo : env.writeOptionsOk
        · simp [prove, hv, hm, hwf, hwo]
        · cases hpan : env.panics
          · rcases hry : env.resultYaml with _ | content
            · simp [prove, hv, hm, hwf, hwo, hpan, hry]
            · rcases hyp : env.yamlParse content with _ | summary
              · simp [prove, hv, hm, hwf, hwo, hpan, hry, hyp]
              · rcases hrd : env.readDirNames with _ | names <;>
                  simp [prove, hv, hm, hwf, hwo, hpan, hry, hyp, hrd]
          · simp [prove, hv, hm, hwf, hwo, hpan]
  · simp [prove, hv]

/-- C1: once the workspace directory is successfully created, the deferred
removal runs exactly once on every exit path — early write failures,
panic unwinding, fatal summary failures and both success shapes — as the
final side effect of the request, and the handler outcome never depends
on whether the removal itself succeeds. -/
theorem workspace_cleanup (req : Request) (env : Env) (tmp : String)
    (h : Event.mkdirTemp (some tmp) ∈ (prove req env).2) :
    ((prove req env).2.countP
      (fun e => match e with | Event.removeAll _ _ => true | _ => false) = 1) ∧
    ((prove req env).2.getLast? = some (Event.removeAll tmp env.removeOk)) ∧
    (∀ b : Bool, (prove req { env with removeOk := b }).1 = (prove req env).1) := by
  obtain ⟨hv, hm⟩ := prove_mem_mkdir req env tmp h
  obtain ⟨evs, htr, hrm, -⟩ := prove_trace_shape req env tmp hv hm
  refine ⟨?_, ?_, fun b => prove_res_removeOk req env b⟩
  · rw [htr]
    simp [List.countP_cons, List.countP_append, hrm]
  · rw [htr, List.getLast?_concat]

/-- Witness for C1 on a concrete run: the removal is the last event and
the outcome is insensitive to the removal result. -/
theorem workspace_cleanup_witness :
    ((prove ⟨some .nil, "P -> P", 2, false⟩
      { mkdirTemp := some "tmp-1", writeFormulaOk := true, writeOptionsOk := true,
        goos := "linux", panics := false, stdout := "", timedOut := false,
        resultYaml := some "valid: true",
        yamlParse := fun _ => some (.cons "valid" (.bool true) .nil),
        readDirNames := some ["proof.log"],
        readFileContent := fun n => if n = "proof.log" then some "ok" else none,
        removeOk := true }).2.countP
      (fun e => match e with | Event.removeAll _ _ => true | _ => false) = 1) ∧
    ((prove ⟨some .nil, "P -> P", 2, false⟩
      { mkdirTemp := some "tmp-1", writeFormulaOk := true, writeOptionsOk := true,
        goos := "linux", panics := false, stdout := "", timedOut := false,
        resultYaml := some "valid: true",
        yamlParse := fun _ => some (.cons "valid" (.bool true) .nil),
        readDirNames := some ["proof.log"],
        readFileContent := fun n => if n = "proof.log" then some "ok" else none,
        removeOk := true }).2.getLast? = some (Event.removeAll "tmp-1" true)) :=
  ⟨(workspace_cleanup _ _ "tmp-1" (by decide)).1,
   (workspace_cleanup _ _ "tmp-1" (by decide)).2.1⟩

/-! ## String-escape roundtrip -/

theorem hexVal_hexDigitChar : ∀ k, k < 16 → hexVal? (hexDigitChar k) = some k := by decide

theorem parseStringBody_escChar (c : Char) (tail : List Char) :
    parseStringBody (escChar c ++ tail) =
      (parseStringBody tail).map (fun p => (c :: p.1, p.2)) := by
  by_cases h1 : c = '"'
  · subst h1
    rw [parseStringBody.eq_def]
    simp [escChar]
  by_cases h2 : c = '\\'
  · subst h2
    rw [parseStringBody.eq_def]
    simp [escChar]
  by_cases h3 : c = '\n'
  · subst h3
    rw [parseStringBody.eq_def]
    simp [escChar]
  by_cases h4 : c = '\r'
  · subst h4
    rw [parseStringBody.eq_def]
    simp [escChar]
  by_cases h5 : c = '\t'
  · subst h5
    rw [parseStringBody.eq_def]
    simp [escChar]
  by_cases h6 : c.toNat < 32
  · have d1 : c.toNat / 16 < 16 := by omega
    have d2 : c.toNat % 16 < 16 := by omega
    have harith : c.toNat / 16 * 16 + c.toNat % 16 = c.toNat := by omega
    have h00 : hexVal? '0' = some 0 := by decide
    simp only [escChar, if_neg h1, if_neg h2, if_neg h3, if_neg h4, if_neg h5, if_pos h6,
      List.cons_append, List.nil_append]
    rw [parseStringBody.eq_def]
    simp [h00, hexVal_hexDigitChar _ d1, hexVal_hexDigitChar _ d2, harith, Char.ofNat_toNat]
  by_cases h7 : c = '<'
  · subst h7
    rw [parseStringBody.eq_def]
    simp [escChar, hexVal?]
  by_cases h8 : c = '>'
  · subst h8
    rw [parseStringBody.eq_def]
    simp [escChar, hexVal?]
  by_cases h9 : c = '&'
  · subst h9
    rw [parseStringBody.eq_def]
    simp [escChar, hexVal?]
  by_cases h10 : c.toNat = 8232
  · have hc : c = Char.ofNat 8232 := by rw [← h10, Char.ofNat_toNat]
    subst hc
    rw [parseStringBody.eq_def]
    simp [escChar, hexVal?]
  by_cases h11 : c.toNat = 8233
  · have hc : c = Char.ofNat 8233 := by rw [← h11, Char.ofNat_toNat]
    subst hc
    rw [parseStringBody.eq_def]
    simp [escChar, hexVal?]
  · simp only [escChar, if_neg h1, if_neg h2, if_neg h3, if_neg h4, if_neg h5, if_neg h6,
      if_neg h7, if_neg h8, if_neg h9, if_neg h10, if_neg h11, List.cons_append,
      List.nil_append]
    rw [parseStringBody.eq_def]
    simp [h1, h2]

theorem parseStringBody_escList (cs rest : List Char) :
    parseStringBody (cs.flatMap escChar ++ '"' :: rest) = some (cs, rest) := by
  induction cs with
  | nil =>
    simp only [List.flatMap_nil, List.nil_append]
    rw [parseStringBody.eq_def]
    simp
  | cons c cs ih =>
    rw [List.flatMap_cons, List.append_assoc, parseStringBody_escChar, ih]
    rfl

theorem parseStringBody_escString (s : String) (rest : List Char) :
    parseStringBody (escString s ++ '"' :: rest) = some (s.data, rest) :=
  parseStringBody_escList s.data rest

/-! ## Decimal roundtrip -/

theorem digitChar_toNat : ∀ d, d < 10 → (digitChar d).toNat = 48 + d := by decide

theorem isDigitChar_digitChar : ∀ d, d < 10 → isDigitChar (digitChar d) = true := by decide

theorem serNatCore_digits : ∀ fuel n, ∀ c ∈ serNatCore fuel n, isDigitChar c = true := by
  intro fuel
  induction fuel with
  | zero => intro n c hc; simp [serNatCore] at hc
  | succ f ih =>
    intro n c hc
    by_cases hn : n = 0
    · simp [serNatCore, hn] at hc
    · simp only [serNatCore, if_neg hn, List.mem_append, List.mem_singleton] at hc
      rcases hc with hc | hc
      · exact ih _ _ hc
      · subst hc
        exact isDigitChar_digitChar _ (Nat.mod_lt _ (show 0 < 10 by norm_num))

theorem serNat_digits (n : Nat) : ∀ c ∈ serNat n, isDigitChar c = true := by
  intro c hc
  by_cases hn : n = 0
  · simp [serNat, hn] at hc
    subst hc
    decide
  · simp only [serNat, if_neg hn] at hc
    exact serNatCore_digits _ _ _ hc

theorem serNat_ne_nil (n : Nat) : serNat n ≠ [] := by
  by_cases hn : n = 0
  · simp [serNat, hn]
  · obtain ⟨f, hf⟩ : ∃ f, n = f + 1 := ⟨n - 1, by omega⟩
    rw [serNat, if_neg hn, hf]
    simp [serNatCore]

theorem parseNatLoop_digits (ds : List Char) :
    ∀ (rest : List Char) (acc : Nat), (∀ c ∈ ds, isDigitChar c = true) →
    (∀ c, rest.head? = some c → isDigitChar c = false) →
    parseNatLoop (ds ++ rest) acc =
      (ds.foldl (fun a c => 10 * a + (c.toNat - 48)) acc, rest) := by
  induction ds with
  | nil =>
    intro rest acc _ hrest
    cases rest with
    | nil => rfl
    | cons c r =>
      have := hrest c rfl
      simp [parseNatLoop, this]
  | cons d ds ih =>
    intro rest acc hds hrest
    have hd : isDigitChar d = true := hds d (by simp)
    simp only [List.cons_append, parseNatLoop, if_pos hd, List.foldl_cons]
    exact ih rest _ (fun c hc => hds c (by simp [hc])) hrest

theorem serNatCore_foldl : ∀ fuel n acc, n ≤ fuel →
    (serNatCore fuel n).foldl (fun a c => 10 * a + (c.toNat - 48)) acc =
      acc * 10 ^ (serNatCore fuel n).length + n := by
  intro fuel
  induction fuel with
  | zero =>
    intro n acc hn
    have : n = 0 := by omega
    simp [serNatCore, this]
  | succ f ih =>
    intro n acc hn
    by_cases h0 : n = 0
    · simp [serNatCore, h0]
    · have hdiv : n / 10 ≤ f := by
        have := Nat.div_lt_self (Nat.pos_of_ne_zero h0) (show 1 < 10 by norm_num)
        omega
      have hm : (digitChar (n % 10)).toNat - 48 = n % 10 := by
        rw [digitChar_toNat _ (Nat.mod_lt _ (show 0 < 10 by norm_num))]
        omega
      simp only [serNatCore, if_neg h0, List.foldl_append, List.foldl_cons, List.foldl_nil,
        List.length_append, List.length_cons, List.length_nil, ih _ _ hdiv, hm]
      have key : ∀ A : Nat, 10 * (A + n / 10) + n % 10 = A * 10 + n := by
        intro A
        omega
      rw [key (acc * 10 ^ (serNatCore f (n / 10)).length), pow_succ, ← Nat.mul_assoc]

theorem parseNat_serNat (n : Nat) (rest : List Char)
    (hrest : ∀ c, rest.head? = some c → isDigitChar c = false) :
    parseNatLoop (serNat n ++ rest) 0 = (n, rest) := by
  rw [parseNatLoop_digits _ _ _ (serNat_digits n) hrest]
  by_cases hn : n = 0
  · subst hn
    norm_num [serNat]
    decide
  · simp only [serNat, if_neg hn]
    rw [serNatCore_foldl n n 0 le_rfl]
    simp

theorem parseNumber_serNat (m : Nat) (rest : List Char)
    (hrest : ∀ c, rest.head? = some c → isDigitChar c = false) :
    parseNumber (serNat m ++ rest) = some ((m : Int), rest) := by
  obtain ⟨d, ds, hser⟩ := List.exists_cons_of_ne_nil (serNat_ne_nil m)
  have hd : isDigitChar d = true := serNat_digits m d (by rw [hser]; exact List.mem_cons_self _ _)
  have hdm : ¬d = '-' := fun h => by subst h; exact absurd hd (by decide)
  have hloop : parseNatLoop (d :: (ds ++ rest)) 0 = (m, rest) := by
    rw [show d :: (ds ++ rest) = serNat m ++ rest by rw [hser, List.cons_append]]
    exact parseNat_serNat m rest hrest
  rw [hser, List.cons_append]
  simp [parseNumber, hdm, hd, hloop]

theorem parseNumber_serInt (n : Int) (rest : List Char)
    (hrest : ∀ c, rest.head? = some c → isDigitChar c = false) :
    parseNumber (serInt n ++ rest) = some (n, rest) := by
  by_cases hneg : n < 0
  · obtain ⟨d, ds, hser⟩ := List.exists_cons_of_ne_nil (serNat_ne_nil n.natAbs)
    have hd : isDigitChar d = true :=
      serNat_digits _ d (by rw [hser]; exact List.mem_cons_self _ _)
    have hloop : parseNatLoop (d :: (ds ++ rest)) 0 = (n.natAbs, rest) := by
      rw [show d :: (ds ++ rest) = serNat n.natAbs ++ rest by rw [hser, List.cons_append]]
      exact parseNat_serNat _ rest hrest
    have hn : -((n.natAbs : Nat) : Int) = n := by omega
    simp only [serInt, if_pos hneg, hser, List.cons_append]
    rw [parseNumber.eq_def]
    simp [hd, hloop, hn]
    rw [abs_of_neg hneg, neg_neg]
  · have : ((n.natAbs : Nat) : Int) = n := by omega
    simp only [serInt, if_neg hneg]
    rw [parseNumber_serNat _ rest hrest, this]

/-! ## Whitespace lemmas -/

theorem skipWs_append_ws (ws cs : List Char) (h : ∀ c ∈ ws, isWsChar c = true) :
    skipWs (ws ++ cs) = skipWs cs := by
  induction ws with
  | nil => rfl
  | cons c w ih =>
    have hc : isWsChar c = true := h c (by simp)
    simp only [List.cons_append, skipWs, hc, if_true]
    exact ih (fun x hx => h x (by simp [hx]))

theorem skipWs_cons_not (c : Char) (r : List Char) (h : isWsChar c = false) :
    skipWs (c :: r) = c :: r := by
  simp [skipWs, h]

theorem skipWs_idem (cs : List Char) : skipWs (skipWs cs) = skipWs cs := by
  induction cs with
  | nil => rfl
  | cons c r ih =>
    by_cases h : isWsChar c = true
    · simp [skipWs, h, ih]
    · have h2 : isWsChar c = false := by simpa using h
      simp [skipWs, h2]

theorem parseValue_skipWs (fuel : Nat) (cs : List Char) :
    parseValue fuel (skipWs cs) = parseValue fuel cs := by
  cases fuel with
  | zero => rfl
  | succ f => simp only [parseValue, skipWs_idem]

theorem parseMembers_skipWs (fuel : Nat) (cs : List Char) :
    parseMembers fuel (skipWs cs) = parseMembers fuel cs := by
  cases fuel with
  | zero => rfl
  | succ f => simp only [parseMembers, skipWs_idem]

theorem parseElems_skipWs (fuel : Nat) (cs : List Char) :
    parseElems fuel (skipWs cs) = parseElems fuel cs := by
  cases fuel with
  | zero => rfl
  | succ f => simp only [parseElems, parseValue_skipWs]

theorem parseValue_ws_append (fuel : Nat) (ws cs : List Char)
    (h : ∀ c ∈ ws, isWsChar c = true) :
    parseValue fuel (ws ++ cs) = parseValue fuel cs := by
  rw [← parseValue_skipWs fuel (ws ++ cs), skipWs_append_ws ws cs h, parseValue_skipWs]

theorem parseMembers_ws_append (fuel : Nat) (ws cs : List Char)
    (h : ∀ c ∈ ws, isWsChar c = true) :
    parseMembers fuel (ws ++ cs) = parseMembers fuel cs := by
  rw [← parseMembers_skipWs fuel (ws ++ cs), skipWs_append_ws ws cs h, parseMembers_skipWs]

theorem parseElems_ws_append (fuel : Nat) (ws cs : List Char)
    (h : ∀ c ∈ ws, isWsChar c = true) :
    parseElems fuel (ws ++ cs) = parseElems fuel cs := by
  rw [← parseElems_skipWs fuel (ws ++ cs), skipWs_append_ws ws cs h, parseElems_skipWs]

/-! ## Head-character facts -/

theorem digit_head_ne (c : Char) (hd : isDigitChar c = true) :
    isWsChar c = false ∧ c ≠ '\x7b' ∧ c ≠ '[' ∧ c ≠ '"' ∧ c ≠ 'n' ∧ c ≠ 't' ∧ c ≠ 'f' ∧
      c ≠ '-' ∧ c ≠ ']' ∧ c ≠ '\x7d' ∧ c ≠ ',' := by
  refine ⟨?_, ?_, ?_, ?_, ?_, ?_, ?_, ?_, ?_, ?_, ?_⟩
  · rw [Bool.eq_false_iff]
    intro hws
    simp only [isWsChar, Bool.or_eq_true, decide_eq_true_eq] at hws
    rcases hws with ((h | h) | h) | h <;> (subst h; exact absurd hd (by decide))
  all_goals (intro h; subst h; exact absurd hd (by decide))

theorem serInt_head (n : Int) :
    ∃ c r, serInt n = c :: r ∧ (c = '-' ∨ isDigitChar c = true) := by
  by_cases hneg : n < 0
  · exact ⟨'-', serNat n.natAbs, by simp [serInt, hneg], Or.inl rfl⟩
  · obtain ⟨d, ds, hser⟩ := List.exists_cons_of_ne_nil (serNat_ne_nil n.natAbs)
    exact ⟨d, ds, by simp [serInt, hneg, hser],
      Or.inr (serNat_digits _ d (by rw [hser]; exact List.mem_cons_self _ _))⟩

theorem serV_head (ind : List Char) (v : JsonV) :
    ∃ c r, serV ind v = c :: r ∧ isWsChar c = false ∧ c ≠ ']' ∧ c ≠ '\x7d' := by
  cases v with
  | null => exact ⟨'n', ['u', 'l', 'l'], by simp [serV], by decide, by decide, by decide⟩
  | bool b =>
    cases b
    · exact ⟨'f', ['a', 'l', 's', 'e'], by simp [serV], by decide, by decide, by decide⟩
    · exact ⟨'t', ['r', 'u', 'e'], by simp [serV], by decide, by decide, by decide⟩
  | num n =>
    obtain ⟨c, r, hser, hc⟩ := serInt_head n
    refine ⟨c, r, by simp [serV, hser], ?_, ?_, ?_⟩ <;>
      rcases hc with rfl | hd
    · decide
    · exact (digit_head_ne c hd).1
    · decide
    · exact (digit_head_ne c hd).2.2.2.2.2.2.2.2.1
    · decide
    · exact (digit_head_ne c hd).2.2.2.2.2.2.2.2.2.1
  | str s =>
    exact ⟨'"', escString s ++ ['"'], by simp [serV], by decide, by decide, by decide⟩
  | arr xs =>
    cases xs with
    | nil => exact ⟨'[', [']'], by simp [serV], by decide, by decide, by decide⟩
    | cons v tl =>
      exact ⟨'[', '\n' :: (serElems (ind ++ [' ', ' ']) (.cons v tl) ++ '\n' :: (ind ++ [']'])),
        by simp [serV], by decide, by decide, by decide⟩
  | obj fs =>
    cases fs with
    | nil => exact ⟨'\x7b', ['\x7d'], by simp [serV], by decide, by decide, by decide⟩
    | cons k v tl =>
      exact ⟨'\x7b',
        '\n' :: (serMembers (ind ++ [' ', ' ']) (.cons k v tl) ++ '\n' :: (ind ++ ['\x7d'])),
        by simp [serV], by decide, by decide, by decide⟩

/-! ## Size lemmas -/

theorem sizeV_pos (v : JsonV) : 1 ≤ sizeV v := by
  cases v <;> simp [sizeV]

theorem sizeL_pos (xs : JsonList) : 1 ≤ sizeL xs := by
  cases xs <;> simp [sizeL] <;> omega

theorem sizeO_pos (fs : JsonObj) : 1 ≤ sizeO fs := by
  cases fs <;> simp [sizeO] <;> omega

theorem skipWs_cons_ws (c : Char) (r : List Char) (h : isWsChar c = true) :
    skipWs (c :: r) = skipWs r := by
  simp [skipWs, h]

theorem wsOnly_indent (ind : List Char) (h : ∀ c ∈ ind, isWsChar c = true) :
    ∀ c ∈ ind ++ [' ', ' '], isWsChar c = true := by
  intro c hc
  rcases List.mem_append.mp hc with h2 | h2
  · exact h c h2
  · have : c = ' ' := by simpa using h2
    subst this
    decide

theorem parse_ser_aux : ∀ fuel : Nat,
    (∀ (v : JsonV) (ind rest : List Char), sizeV v ≤ fuel →
      (∀ c ∈ ind, isWsChar c = true) →
      (∀ c, rest.head? = some c → isDigitChar c = false) →
      parseValue fuel (serV ind v ++ rest) = some (v, rest)) ∧
    (∀ (k : String) (w : JsonV) (tl : JsonObj) (ind ws2 rest : List Char),
      sizeO (.cons k w tl) ≤ fuel →
      (∀ c ∈ ind, isWsChar c = true) → (∀ c ∈ ws2, isWsChar c = true) →
      parseMembers fuel
          (serMembers ind (.cons k w tl) ++ '\n' :: (ws2 ++ '\x7d' :: rest)) =
        some (.cons k w tl, rest)) ∧
    (∀ (w : JsonV) (tl : JsonList) (ind ws2 rest : List Char),
      sizeL (.cons w tl) ≤ fuel →
      (∀ c ∈ ind, isWsChar c = true) → (∀ c ∈ ws2, isWsChar c = true) →
      parseElems fuel (serElems ind (.cons w tl) ++ '\n' :: (ws2 ++ ']' :: rest)) =
        some (.cons w tl, rest)) := by
  intro fuel
  induction fuel with
  | zero =>
    refine ⟨fun v ind rest hsz _ _ => ?_, fun k w tl ind ws2 rest hsz _ _ => ?_,
            fun w tl ind ws2 rest hsz _ _ => ?_⟩
    · have := sizeV_pos v
      omega
    · simp [sizeO] at hsz
    · simp [sizeL] at hsz
  | succ f ih =>
    obtain ⟨ihV, ihM, ihL⟩ := ih
    refine ⟨?_, ?_, ?_⟩
    · -- values
      intro v ind rest hsz hind hrest
      cases v with
      | null =>
        rw [show serV ind .null = ['n', 'u', 'l', 'l'] from by simp [serV]]
        simp only [List.cons_append, List.nil_append, parseValue]
        rw [skipWs_cons_not _ _ (by decide)]
        simp
      | bool b =>
        cases b
        · rw [show serV ind (.bool false) = ['f', 'a', 'l', 's', 'e'] from by simp [serV]]
          simp only [List.cons_append, List.nil_append, parseValue]
          rw [skipWs_cons_not _ _ (by decide)]
          simp
        · rw [show serV ind (.bool true) = ['t', 'r', 'u', 'e'] from by simp [serV]]
          simp only [List.cons_append, List.nil_append, parseValue]
          rw [skipWs_cons_not _ _ (by decide)]
          simp
      | num n =>
        obtain ⟨c0, r0, hser, hc0⟩ := serInt_head n
        have hfacts : isWsChar c0 = false ∧ c0 ≠ '\x7b' ∧ c0 ≠ '[' ∧ c0 ≠ '"' ∧
            c0 ≠ 'n' ∧ c0 ≠ 't' ∧ c0 ≠ 'f' := by
          rcases hc0 with rfl | hd
          · exact ⟨by decide, by decide, by decide, by decide, by decide, by decide, by decide⟩
          · obtain ⟨a1, a2, a3, a4, a5, a6, a7, -, -, -, -⟩ := digit_head_ne _ hd
            exact ⟨a1, a2, a3, a4, a5, a6, a7⟩
        obtain ⟨hws0, hb1, hb2, hb3, hb4, hb5, hb6⟩ := hfacts
        rw [show serV ind (.num n) = serInt n from by simp [serV]]
        rw [hser, List.cons_append]
        simp only [parseValue]
        rw [skipWs_cons_not _ _ hws0]
        simp only [if_neg hb1, if_neg hb2, if_neg hb3, if_neg hb4, if_neg hb5, if_neg hb6]
        rw [show c0 :: (r0 ++ rest) = serInt n ++ rest from by rw [hser, List.cons_append]]
        rw [parseNumber_serInt n rest hrest]
      | str s =>
        rw [show serV ind (.str s) ++ rest = '"' :: (escString s ++ '"' :: rest) from by
          simp [serV]]
        simp only [parseValue]
        rw [skipWs_cons_not _ _ (by decide)]
        simp [parseStringBody_escString]
      | arr xs =>
        cases xs with
        | nil =>
          rw [show serV ind (.arr .nil) = ['[', ']'] from by simp [serV]]
          simp only [List.cons_append, List.nil_append, parseValue]
          rw [skipWs_cons_not _ _ (by decide)]
          simp [skipWs_cons_not _ _ (show isWsChar ']' = false from by decide)]
        | cons w tl =>
          have hind2 := wsOnly_indent ind hind
          have hsz2 : sizeL (.cons w tl) ≤ f := by
            simp only [sizeV] at hsz
            omega
          obtain ⟨cv, rv, hserv, hwsv, hbv1, hbv2⟩ := serV_head (ind ++ [' ', ' ']) w
          have hT : ∃ T, serElems (ind ++ [' ', ' ']) (.cons w tl) ++
              ('\n' :: (ind ++ ']' :: rest)) =
              (ind ++ [' ', ' ']) ++ (cv :: (rv ++ T)) := by
            cases tl with
            | nil =>
              exact ⟨'\n' :: (ind ++ ']' :: rest), by simp [serElems, hserv]⟩
            | cons w2 tl2 =>
              exact ⟨',' :: ('\n' :: (serElems (ind ++ [' ', ' ']) (.cons w2 tl2) ++
                ('\n' :: (ind ++ ']' :: rest)))), by simp [serElems, hserv]⟩
          obtain ⟨T, hT⟩ := hT
          have hSE : skipWs ('\n' :: (serElems (ind ++ [' ', ' ']) (.cons w tl) ++
              ('\n' :: (ind ++ ']' :: rest)))) = cv :: (rv ++ T) := by
            rw [skipWs_cons_ws _ _ (by decide), hT, skipWs_append_ws _ _ hind2,
              skipWs_cons_not _ _ hwsv]
          have hPE : parseElems f (cv :: (rv ++ T)) = some (.cons w tl, rest) := by
            rw [← parseElems_ws_append f (ind ++ [' ', ' ']) (cv :: (rv ++ T)) hind2, ← hT]
            exact ihL w tl (ind ++ [' ', ' ']) ind rest hsz2 hind2 hind
          rw [show serV ind (.arr (.cons w tl)) ++ rest =
              '[' :: ('\n' :: (serElems (ind ++ [' ', ' ']) (.cons w tl) ++
                ('\n' :: (ind ++ ']' :: rest)))) from by simp [serV]]
          simp only [parseValue]
          rw [skipWs_cons_not _ _ (by decide)]
          simp [hSE, if_neg hbv1, hPE]
      | obj fs =>
        cases fs with
        | nil =>
          rw [show serV ind (.obj .nil) = ['\x7b', '\x7d'] from by simp [serV]]
          simp only [List.cons_append, List.nil_append, parseValue]
          rw [skipWs_cons_not _ _ (by decide)]
          simp [skipWs_cons_not _ _ (show isWsChar '\x7d' = false from by decide)]
        | cons k w tl =>
          have hind2 := wsOnly_indent ind hind
          have hsz2 : sizeO (.cons k w tl) ≤ f := by
            simp only [sizeV] at hsz
            omega
          have hY : ∃ Y, serMembers (ind ++ [' ', ' ']) (.cons k w tl) ++
              ('\n' :: (ind ++ '\x7d' :: rest)) =
              (ind ++ [' ', ' ']) ++ ('"' :: Y) := by
            cases tl with
            | nil =>
              exact ⟨escString k ++ '"' :: (':' :: (' ' :: (serV (ind ++ [' ', ' ']) w ++
                ('\n' :: (ind ++ '\x7d' :: rest))))), by simp [serMembers]⟩
            | cons k2 w2 tl2 =>
              exact ⟨escString k ++ '"' :: (':' :: (' ' :: (serV (ind ++ [' ', ' ']) w ++
                (',' :: ('\n' :: (serMembers (ind ++ [' ', ' ']) (.cons k2 w2 tl2) ++
                  ('\n' :: (ind ++ '\x7d' :: rest)))))))), by simp [serMembers]⟩
          obtain ⟨Y, hY⟩ := hY
          have hSM : skipWs ('\n' :: (serMembers (ind ++ [' ', ' ']) (.cons k w tl) ++
              ('\n' :: (ind ++ '\x7d' :: rest)))) = '"' :: Y := by
            rw [skipWs_cons_ws _ _ (by decide), hY, skipWs_append_ws _ _ hind2,
              skipWs_cons_not _ _ (by decide)]
          have hPM : parseMembers f ('"' :: Y) = some (.cons k w tl, rest) := by
            rw [← parseMembers_ws_append f (ind ++ [' ', ' ']) ('"' :: Y) hind2, ← hY]
            exact ihM k w tl (ind ++ [' ', ' ']) ind rest hsz2 hind2 hind
          rw [show serV ind (.obj (.cons k w tl)) ++ rest =
              '\x7b' :: ('\n' :: (serMembers (ind ++ [' ', ' ']) (.cons k w tl) ++
                ('\n' :: (ind ++ '\x7d' :: rest)))) from by simp [serV]]
          simp only [parseValue]
          rw [skipWs_cons_not _ _ (by decide)]
          simp [hSM, hPM]
    · -- members
      intro k w tl ind ws2 rest hsz hind hws2
      have hszV : sizeV w ≤ f := by
        simp only [sizeO] at hsz
        have := sizeO_pos tl
        omega
      cases tl with
      | nil =>
        set close := '\n' :: (ws2 ++ '\x7d' :: rest) with hclose
        have hheadc : ∀ c, close.head? = some c → isDigitChar c = false := by
          rw [hclose]
          intro c hc
          simp at hc
          subst hc
          decide
        have hshape : serMembers ind (.cons k w .nil) ++ close =
            ind ++ ('"' :: (escString k ++ '"' :: (':' :: (' ' :: (serV ind w ++ close))))) := by
          simp [serMembers]
        have hskip1 : skipWs (ind ++ ('"' :: (escString k ++ '"' ::
            (':' :: (' ' :: (serV ind w ++ close)))))) =
            '"' :: (escString k ++ '"' :: (':' :: (' ' :: (serV ind w ++ close)))) := by
          rw [skipWs_append_ws _ _ hind, skipWs_cons_not _ _ (by decide)]
        have h1 := parseStringBody_escString k (':' :: (' ' :: (serV ind w ++ close)))
        have h2 : skipWs (':' :: (' ' :: (serV ind w ++ close))) =
            ':' :: (' ' :: (serV ind w ++ close)) :=
          skipWs_cons_not _ _ (by decide)
        have h3 : parseValue f (' ' :: (serV ind w ++ close)) = some (w, close) := by
          rw [show (' ' :: (serV ind w ++ close)) = [' '] ++ (serV ind w ++ close) from rfl,
            parseValue_ws_append _ _ _ (by intro c hc; simp at hc; subst hc; decide)]
          exact ihV w ind close hszV hind hheadc
        have h4 : skipWs close = '\x7d' :: rest := by
          rw [hclose, skipWs_cons_ws _ _ (by decide), skipWs_append_ws _ _ hws2,
            skipWs_cons_not _ _ (by decide)]
        rw [hshape]
        simp only [parseMembers]
        simp [hskip1, h1, h2, h3, h4]
      | cons k2 w2 tl2 =>
        have hszO2 : sizeO (.cons k2 w2 tl2) ≤ f := by
          simp only [sizeO] at hsz ⊢
          have := sizeV_pos w
          omega
        set close := '\n' :: (ws2 ++ '\x7d' :: rest) with hclose
        set M2 := serMembers ind (.cons k2 w2 tl2) with hM2
        set T := ',' :: ('\n' :: (M2 ++ close)) with hTdef
        have hheadT : ∀ c, T.head? = some c → isDigitChar c = false := by
          rw [hTdef]
          intro c hc
          simp at hc
          subst hc
          decide
        have hshape : serMembers ind (.cons k w (.cons k2 w2 tl2)) ++ close =
            ind ++ ('"' :: (escString k ++ '"' :: (':' :: (' ' :: (serV ind w ++ T))))) := by
          rw [hTdef, hM2, hclose]
          simp [serMembers]
        have hskip1 : skipWs (ind ++ ('"' :: (escString k ++ '"' ::
            (':' :: (' ' :: (serV ind w ++ T)))))) =
            '"' :: (escString k ++ '"' :: (':' :: (' ' :: (serV ind w ++ T)))) := by
          rw [skipWs_append_ws _ _ hind, skipWs_cons_not _ _ (by decide)]
        have h1 := parseStringBody_escString k (':' :: (' ' :: (serV ind w ++ T)))
        have h2 : skipWs (':' :: (' ' :: (serV ind w ++ T))) =
            ':' :: (' ' :: (serV ind w ++ T)) :=
          skipWs_cons_not _ _ (by decide)
        have h3 : parseValue f (' ' :: (serV ind w ++ T)) = some (w, T) := by
          rw [show (' ' :: (serV ind w ++ T)) = [' '] ++ (serV ind w ++ T) from rfl,
            parseValue_ws_append _ _ _ (by intro c hc; simp at hc; subst hc; decide)]
          exact ihV w ind T hszV hind hheadT
        have h4 : skipWs T = ',' :: ('\n' :: (M2 ++ close)) := by
          rw [hTdef]
          exact skipWs_cons_not _ _ (by decide)
        have h5 : parseMembers f ('\n' :: (M2 ++ close)) = some (.cons k2 w2 tl2, rest) := by
          rw [show ('\n' :: (M2 ++ close)) = ['\n'] ++ (M2 ++ close) from rfl,
            parseMembers_ws_append _ _ _ (by intro c hc; simp at hc; subst hc; decide),
            hM2, hclose]
          exact ihM k2 w2 tl2 ind ws2 rest hszO2 hind hws2
        rw [hshape]
        simp only [parseMembers]
        simp [hskip1, h1, h2, h3, h4, h5]
    · -- elements
      intro w tl ind ws2 rest hsz hind hws2
      have hszV : sizeV w ≤ f := by
        simp only [sizeL] at hsz
        have := sizeL_pos tl
        omega
      cases tl with
      | nil =>
        set close := '\n' :: (ws2 ++ ']' :: rest) with hclose
        have hheadc : ∀ c, close.head? = some c → isDigitChar c = false := by
          rw [hclose]
          intro c hc
          simp at hc
          subst hc
          decide
        have hshape : serElems ind (.cons w .nil) ++ close =
            ind ++ (serV ind w ++ close) := by
          simp [serElems]
        have hPV : parseValue f (ind ++ (serV ind w ++ close)) = some (w, close) := by
          rw [parseValue_ws_append _ _ _ hind]
          exact ihV w ind close hszV hind hheadc
        have h4 : skipWs close = ']' :: rest := by
          rw [hclose, skipWs_cons_ws _ _ (by decide), skipWs_append_ws _ _ hws2,
            skipWs_cons_not _ _ (by decide)]
        rw [hshape]
        simp only [parseElems]
        simp [hPV, h4]
      | cons w2 tl2 =>
        have hszL2 : sizeL (.cons w2 tl2) ≤ f := by
          simp only [sizeL] at hsz ⊢
          have := sizeV_pos w
          omega
        set close := '\n' :: (ws2 ++ ']' :: rest) with hclose
        set E2 := serElems ind (.cons w2 tl2) with hE2
        set T := ',' :: ('\n' :: (E2 ++ close)) with hTdef
        have hheadT : ∀ c, T.head? = some c → isDigitChar c = false := by
          rw [hTdef]
          intro c hc
          simp at hc
          subst hc
          decide
        have hshape : serElems ind (.cons w (.cons w2 tl2)) ++ close =
            ind ++ (serV ind w ++ T) := by
          rw [hTdef, hE2, hclose]
          simp [serElems]
        have hPV : parseValue f (ind ++ (serV ind w ++ T)) = some (w, T) := by
          rw [parseValue_ws_append _ _ _ hind]
          exact ihV w ind T hszV hind hheadT
        have h4 : skipWs T = ',' :: ('\n' :: (E2 ++ close)) := by
          rw [hTdef]
          exact skipWs_cons_not _ _ (by decide)
        have h5 : parseElems f ('\n' :: (E2 ++ close)) = some (.cons w2 tl2, rest) := by
          rw [show ('\n' :: (E2 ++ close)) = ['\n'] ++ (E2 ++ close) from rfl,
            parseElems_ws_append _ _ _ (by intro c hc; simp at hc; subst hc; decide),
            hE2, hclose]
          exact ihL w2 tl2 ind ws2 rest hszL2 hind hws2
        rw [hshape]
        simp only [parseElems]
        simp [hPV, h4, h5]

mutual

theorem sizeV_le_serV (ind : List Char) (v : JsonV) : sizeV v ≤ (serV ind v).length := by
  cases v with
  | null => simp [serV, sizeV]
  | bool b => cases b <;> simp [serV, sizeV]
  | num n =>
    obtain ⟨c, r, hser, -⟩ := serInt_head n
    simp [serV, sizeV, hser]
  | str s => simp [serV, sizeV]
  | arr xs =>
    cases xs with
    | nil => simp [serV, sizeV, sizeL]
    | cons w tl =>
      have h := sizeL_le_serElems (ind ++ [' ', ' ']) (.cons w tl)
      simp only [serV, sizeV, List.length_append, List.length_cons, List.length_nil]
      omega
  | obj fs =>
    cases fs with
    | nil => simp [serV, sizeV, sizeO]
    | cons k w tl =>
      have h := sizeO_le_serMembers (ind ++ [' ', ' ']) (.cons k w tl)
      simp only [serV, sizeV, List.length_append, List.length_cons, List.length_nil]
      omega
termination_by sizeV v
decreasing_by all_goals (simp_wf; simp only [sizeV, sizeO, sizeL]; omega)

theorem sizeO_le_serMembers (ind : List Char) (fs : JsonObj) :
    sizeO fs ≤ (serMembers ind fs).length + 3 := by
  cases fs with
  | nil => simp [serMembers, sizeO]
  | cons k w tl =>
    have hw := sizeV_le_serV ind w
    cases tl with
    | nil =>
      simp only [serMembers, sizeO, List.length_append, List.length_cons, List.length_nil]
      omega
    | cons k2 w2 tl2 =>
      have htl := sizeO_le_serMembers ind (.cons k2 w2 tl2)
      simp only [serMembers, sizeO, List.length_append, List.length_cons,
        List.length_nil] at htl ⊢
      omega
termination_by sizeO fs
decreasing_by all_goals (simp_wf; simp only [sizeV, sizeO, sizeL]; omega)

theorem sizeL_le_serElems (ind : List Char) (xs : JsonList) :
    sizeL xs ≤ (serElems ind xs).length + 3 := by
  cases xs with
  | nil => simp [serElems, sizeL]
  | cons w tl =>
    have hw := sizeV_le_serV ind w
    cases tl with
    | nil =>
      simp only [serElems, sizeL, List.length_append, List.length_cons, List.length_nil]
      omega
    | cons w2 tl2 =>
      have htl := sizeL_le_serElems ind (.cons w2 tl2)
      simp only [serElems, sizeL, List.length_append, List.length_cons,
        List.length_nil] at htl ⊢
      omega
termination_by sizeL xs
decreasing_by all_goals (simp_wf; simp only [sizeV, sizeO, sizeL]; omega)

end

theorem parseJson_marshalIndent (v : JsonV) : parseJson (marshalIndent v) = some v := by
  have hfuel : sizeV v ≤ (serV [] v).length + 1 := by
    have := sizeV_le_serV [] v
    omega
  have h := (parse_ser_aux ((serV [] v).length + 1)).1 v [] [] hfuel (by simp) (by simp)
  rw [List.append_nil] at h
  show (match parseValue ((String.mk (serV [] v)).data.length + 1)
      (String.mk (serV [] v)).data with
    | none => none
    | some (w, rest) => if skipWs rest = [] then some w else none) = some v
  rw [show (String.mk (serV [] v)).data = serV [] v from rfl, h]
  simp [skipWs]

/-- C9: serializing an accepted options map to the options.json artifact
with the MarshalIndent format and parsing the artifact bytes back as a
structured value recovers the original map; in particular the map with
key a bound to 1 and key b bound to the string x serializes to the
expected artifact bytes and round-trips to an equal structured value. -/
theorem options_roundtrip :
    (∀ fs : JsonObj, parseJson (marshalIndent (.obj fs)) = some (.obj fs)) ∧
    marshalIndent (.obj (.cons "a" (.num 1) (.cons "b" (.str "x") .nil))) =
      "\x7b\n  \"a\": 1,\n  \"b\": \"x\"\n\x7d" ∧
    parseJson (marshalIndent (.obj (.cons "a" (.num 1) (.cons "b" (.str "x") .nil)))) =
      some (.obj (.cons "a" (.num 1) (.cons "b" (.str "x") .nil))) :=
  ⟨fun fs => parseJson_marshalIndent (.obj fs), by decide,
   parseJson_marshalIndent (.obj (.cons "a" (.num 1) (.cons "b" (.str "x") .nil)))⟩
